import Mathlib

/-
  Verification of the bulk-rename core of yazi
  (src/yazi-core/src/manager/commands/bulk_rename.rs).

  The development shallowly embeds `Manager::sort` (the dependency
  scheduler) and the rename-executing part of `Manager::bulk_rename_do`.
  Rust `HashMap`s are embedded as association lists with
  insert-or-overwrite semantics; the only operations the code performs on
  them whose result depends on the (arbitrary) hash iteration order are
  full iterations that are immediately followed by a `sort_by` with a
  strict total comparator, so the canonical embedding keeps entries in
  insertion order, and a second, iteration-order-parameterised embedding
  (`sortGoIter`) is used to prove that the result is the same for every
  iteration order a `HashMap` could produce.
-/

namespace BulkRename

variable {α : Type} [DecidableEq α] {β : Type}

/-- HashMap::insert - insert a key/value pair, overwriting the value if the
key is already present (first occurrence keeps its position). -/
def insertAL : List (α × β) → α → β → List (α × β)
  | [], k, v => [(k, v)]
  | (k', v') :: rest, k, v =>
      if k' = k then (k', v) :: rest else (k', v') :: insertAL rest k v

/-- HashMap lookup (get): the value at the first occurrence of the key. -/
def lookupAL : List (α × β) → α → Option β
  | [], _ => none
  | (k', v') :: rest, k => if k' = k then some v' else lookupAL rest k

/-- HashMap::remove - drop the (first) entry with the given key. -/
def removeAL : List (α × β) → α → List (α × β)
  | [], _ => []
  | (k', v') :: rest, k => if k' = k then rest else (k', v') :: removeAL rest k

/-- The get_mut pattern: overwrite the value at a key if the key is
present, and do nothing otherwise. -/
def updateAL : List (α × β) → α → β → List (α × β)
  | [], _, _ => []
  | (k', v') :: rest, k, v =>
      if k' = k then (k', v) :: rest else (k', v') :: updateAL rest k v

/-- The key list of an association list. -/
def keys (m : List (α × β)) : List α := m.map Prod.fst

/-- Accumulator loop for `userOrderMap`: insert each path with its index,
in input order (a later duplicate overwrites an earlier index, as the
Rust `collect` into a `HashMap` does). -/
def uoGo : List α → Nat → List (α × Nat) → List (α × Nat)
  | [], _, m => m
  | p :: rest, i, m => uoGo rest (i + 1) (insertAL m p i)

/-- The `user_order` map of `Manager::sort`: path to its index in the
input list. -/
def userOrderMap (old : List α) : List (α × Nat) := uoGo old 0 []

/-- The `user_order[p]` lookup. In `Manager::sort` every key that is ever
looked up is present in the map, so the default value is never used. -/
def userOrder (old : List α) (a : α) : Nat := (lookupAL (userOrderMap old) a).getD 0

/-- Accumulator loop for `initIncome`. -/
def initIncomeGo : List α → List (α × Bool) → List (α × Bool)
  | [], m => m
  | p :: rest, m => initIncomeGo rest (insertAL m p false)

/-- The initial `income_map` of `Manager::sort`: every old path mapped to
`false`. -/
def initIncome (old : List α) : List (α × Bool) := initIncomeGo old []

/-- The single pass of `Manager::sort` that builds `todos` while flagging
in `income_map` every destination that is also a pending source: for each
zipped pair, first `income_map.get_mut(&new)` is set to `true` (if the
key exists), then `(old, new)` is inserted into `todos`. -/
def scanPairs : List (α × α) → List (α × Bool) → List (α × α) →
    List (α × Bool) × List (α × α)
  | [], inc, td => (inc, td)
  | (o, n) :: rest, inc, td => scanPairs rest (updateAL inc n true) (insertAL td o n)

/-- The inner `for old in has_no_incomes` loop of `Manager::sort`: remove
the path from `income_map`, remove its entry from `todos` (the
`unreachable!` panic, modelled as `none`, fires if it is absent), clear
the income flag of its destination, and push the pair onto `sorted`. -/
def resolveRound : List α → List (α × Bool) → List (α × α) → List (α × α) →
    Option (List (α × Bool) × List (α × α) × List (α × α))
  | [], inc, td, d => some (inc, td, d)
  | o :: rest, inc, td, d =>
      match lookupAL td o with
      | none => none
      | some n => resolveRound rest (updateAL (removeAL inc o) n false) (removeAL td o) (d ++ [(o, n)])

/-- Result of the scheduler: the returned order, the `unreachable!` panic,
or exhaustion of the fuel that stands in for the `while` loop (proved
unreachable below). -/
inductive SortResult (α : Type) where
  | ok (l : List (α × α))
  | panic
  | fuelOut
deriving DecidableEq

/-- The `while !todos.is_empty()` loop of `Manager::sort`.  Each round
collects the keys of `income_map` whose flag is `false`; if there are
none, the remaining (cyclic) `todos` are drained, sorted by ascending
user order and appended after the reversed prefix; otherwise the
collected keys are sorted by descending user order and resolved one by
one.  On normal exit the accumulated list is reversed once. -/
def sortGo (uo : α → Nat) : Nat → List (α × Bool) → List (α × α) → List (α × α) →
    SortResult α
  | 0, _, _, _ => .fuelOut
  | fuel + 1, income, todos, d =>
      if todos = [] then .ok d.reverse
      else
        let hni := (income.filter (fun kv => !kv.2)).map Prod.fst
        if hni = [] then
          .ok (d.reverse ++ List.insertionSort (fun p q : α × α => uo p.1 ≤ uo q.1) todos)
        else
          match resolveRound (List.insertionSort (fun a b => uo b ≤ uo a) hni) income todos d with
          | none => .panic
          | some (inc', td', d') => sortGo uo fuel inc' td' d'

/-- `Manager::sort`, taking the two path lists exactly as the Rust
function does (`old.iter().zip(new)` silently truncates to the shorter
list).  The fuel `old.length + 1` is proved sufficient below. -/
def sortR (old new : List α) : SortResult α :=
  let st := scanPairs (old.zip new) (initIncome old) []
  sortGo (userOrder old) (old.length + 1) st.1 st.2 []

/-- `Manager::sort` on a list of rename pairs (equal-length inputs). -/
def sortPairs (ps : List (α × α)) : SortResult α :=
  sortR (ps.map Prod.fst) (ps.map Prod.snd)

/-! Basic facts about the association-list embedding of HashMap. -/

theorem keys_nil : keys ([] : List (α × β)) = [] := rfl

theorem keys_cons (k : α) (v : β) (rest : List (α × β)) :
    keys ((k, v) :: rest) = k :: keys rest := rfl

theorem lookupAL_isSome_iff (m : List (α × β)) (k : α) :
    (lookupAL m k).isSome ↔ k ∈ keys m := by
  induction m with
  | nil => simp [lookupAL, keys_nil]
  | cons kv rest ih =>
    obtain ⟨k', v'⟩ := kv
    by_cases h : k' = k
    · subst h; simp [lookupAL, keys_cons]
    · simp [lookupAL, keys_cons, h, Ne.symm h]
      exact ih

theorem lookupAL_eq_none_of_not_mem {m : List (α × β)} {k : α}
    (h : k ∉ keys m) : lookupAL m k = none := by
  have := (lookupAL_isSome_iff m k).not.mpr h
  cases hl : lookupAL m k
  · rfl
  · rw [hl] at this; simp at this

theorem keys_updateAL (m : List (α × β)) (k : α) (v : β) :
    keys (updateAL m k v) = keys m := by
  induction m with
  | nil => rfl
  | cons kv rest ih =>
    obtain ⟨k', v'⟩ := kv
    by_cases h : k' = k
    · simp [updateAL, h, keys_cons]
    · simp [updateAL, h, keys_cons]
      exact ih

theorem keys_removeAL (m : List (α × β)) (k : α) :
    keys (removeAL m k) = (keys m).erase k := by
  induction m with
  | nil => rfl
  | cons kv rest ih =>
    obtain ⟨k', v'⟩ := kv
    by_cases h : k' = k
    · subst h; simp [removeAL, keys_cons, List.erase_cons]
    · simp [removeAL, h, keys_cons, List.erase_cons, Ne.symm h]
      exact ih

theorem length_keys (m : List (α × β)) : (keys m).length = m.length := by
  simp [keys]

theorem mem_keys_insertAL (m : List (α × β)) (k : α) (v : β) (a : α) :
    a ∈ keys (insertAL m k v) ↔ a ∈ keys m ∨ a = k := by
  induction m with
  | nil => simp [insertAL, keys_nil, keys_cons]
  | cons kv rest ih =>
    obtain ⟨k', v'⟩ := kv
    by_cases h : k' = k
    · subst h
      simp [insertAL, keys_cons]
      tauto
    · simp [insertAL, h, keys_cons]
      rw [ih]
      tauto

theorem nodup_keys_insertAL (m : List (α × β)) (k : α) (v : β)
    (h : (keys m).Nodup) : (keys (insertAL m k v)).Nodup := by
  induction m with
  | nil => simp [insertAL, keys_nil, keys_cons]
  | cons kv rest ih =>
    obtain ⟨k', v'⟩ := kv
    rw [keys_cons] at h
    simp only [List.nodup_cons] at h
    by_cases hk : k' = k
    · subst hk
      simp [insertAL, keys_cons, List.nodup_cons]
      exact h
    · simp only [insertAL, if_neg hk, keys_cons, List.nodup_cons]
      refine ⟨fun hmem => ?_, ih h.2⟩
      rcases (mem_keys_insertAL rest k v k').mp hmem with hm | hm
      · exact h.1 hm
      · exact hk hm

theorem perm_cons_removeAL {m : List (α × β)} {k : α} {v : β}
    (h : lookupAL m k = some v) : m.Perm ((k, v) :: removeAL m k) := by
  induction m with
  | nil => simp [lookupAL] at h
  | cons kv rest ih =>
    obtain ⟨k', v'⟩ := kv
    by_cases hk : k' = k
    · subst hk
      simp [lookupAL] at h
      subst h
      simp [removeAL]
    · simp [lookupAL, hk] at h
      simp [removeAL, hk]
      exact ((ih h).cons (k', v')).trans (List.Perm.swap _ _ _)

/-! Facts about erasing a batch of keys, used to track the key sets of
`income_map` and `todos` across one round of the scheduler loop. -/

theorem mem_foldl_erase (ks : List α) :
    ∀ (A : List α), A.Nodup → ∀ a, (a ∈ ks.foldl List.erase A ↔ a ∈ A ∧ a ∉ ks) := by
  induction ks with
  | nil => simp
  | cons k rest ih =>
    intro A hA a
    simp only [List.foldl_cons]
    rw [ih (A.erase k) (hA.erase k) a, hA.mem_erase_iff]
    constructor
    · rintro ⟨⟨h1, h2⟩, h3⟩
      exact ⟨h2, by simp [h1, h3]⟩
    · rintro ⟨h1, h2⟩
      simp at h2
      exact ⟨⟨h2.1, h1⟩, h2.2⟩

theorem nodup_foldl_erase (ks : List α) :
    ∀ (A : List α), A.Nodup → (ks.foldl List.erase A).Nodup := by
  induction ks with
  | nil => simpa
  | cons k rest ih => intro A hA; exact ih _ (hA.erase k)

theorem length_foldl_erase_le (ks : List α) :
    ∀ (A : List α), (ks.foldl List.erase A).length ≤ A.length := by
  induction ks with
  | nil => simp
  | cons k rest ih =>
    intro A
    calc ((k :: rest).foldl List.erase A).length
        = (rest.foldl List.erase (A.erase k)).length := by simp
      _ ≤ (A.erase k).length := ih _
      _ ≤ A.length := (A.erase_sublist k).length_le

theorem length_foldl_erase_lt {k : α} (rest : List α) {A : List α}
    (h : k ∈ A) : ((k :: rest).foldl List.erase A).length < A.length := by
  calc ((k :: rest).foldl List.erase A).length
      = (rest.foldl List.erase (A.erase k)).length := by simp
    _ ≤ (A.erase k).length := length_foldl_erase_le rest _
    _ < A.length := by
        rw [List.length_erase_of_mem h]
        exact Nat.pred_lt (Nat.pos_iff_ne_zero.mp (List.length_pos_of_mem h))

/-! Key-set facts for the construction phase of `Manager::sort`. -/

theorem mem_keys_initIncomeGo (l : List α) :
    ∀ (m : List (α × Bool)) (a : α),
      a ∈ keys (initIncomeGo l m) ↔ a ∈ keys m ∨ a ∈ l := by
  induction l with
  | nil => simp [initIncomeGo]
  | cons p rest ih =>
    intro m a
    rw [initIncomeGo, ih, mem_keys_insertAL]
    simp [List.mem_cons]
    tauto

theorem nodup_keys_initIncomeGo (l : List α) :
    ∀ (m : List (α × Bool)), (keys m).Nodup → (keys (initIncomeGo l m)).Nodup := by
  induction l with
  | nil => intro m hm; exact hm
  | cons p rest ih => intro m hm; exact ih _ (nodup_keys_insertAL m p false hm)

theorem mem_keys_initIncome (old : List α) (a : α) :
    a ∈ keys (initIncome old) ↔ a ∈ old := by
  rw [initIncome, mem_keys_initIncomeGo]
  simp [keys_nil]

theorem nodup_keys_initIncome (old : List α) : (keys (initIncome old)).Nodup :=
  nodup_keys_initIncomeGo old [] (by simp [keys_nil])

theorem scanPairs_income_keys (ps : List (α × α)) :
    ∀ inc td, keys (scanPairs ps inc td).1 = keys inc := by
  induction ps with
  | nil => intro inc td; rfl
  | cons p rest ih =>
    intro inc td
    obtain ⟨o, n⟩ := p
    rw [scanPairs, ih, keys_updateAL]

theorem mem_keys_scanPairs_todos (ps : List (α × α)) :
    ∀ inc td a, a ∈ keys (scanPairs ps inc td).2 ↔ a ∈ keys td ∨ a ∈ ps.map Prod.fst := by
  induction ps with
  | nil => simp [scanPairs]
  | cons p rest ih =>
    intro inc td a
    obtain ⟨o, n⟩ := p
    rw [scanPairs, ih, mem_keys_insertAL]
    simp
    tauto

theorem nodup_keys_scanPairs_todos (ps : List (α × α)) :
    ∀ inc td, (keys td).Nodup → (keys (scanPairs ps inc td).2).Nodup := by
  induction ps with
  | nil => intro inc td h; exact h
  | cons p rest ih =>
    intro inc td h
    obtain ⟨o, n⟩ := p
    exact ih _ _ (nodup_keys_insertAL td o n h)

/-! Facts about one round of the resolution loop. -/

theorem resolveRound_some (hni : List α) :
    ∀ (inc : List (α × Bool)) (td d : List (α × α)), hni.Nodup →
      (∀ k ∈ hni, k ∈ keys td) →
      ∃ st, resolveRound hni inc td d = some st := by
  induction hni with
  | nil => intro inc td d _ _; exact ⟨_, rfl⟩
  | cons o rest ih =>
    intro inc td d hnd hmem
    have ho : o ∈ keys td := hmem o (by simp)
    obtain ⟨n, hn⟩ := Option.isSome_iff_exists.mp ((lookupAL_isSome_iff td o).mpr ho)
    rw [resolveRound, hn]
    apply ih
    · exact hnd.of_cons
    · intro k hk
      rw [keys_removeAL]
      have hko : k ≠ o := by
        rintro rfl
        exact (List.nodup_cons.mp hnd).1 hk
      exact (List.mem_erase_of_ne hko).mpr (hmem k (by simp [hk]))

theorem resolveRound_keys (hni : List α) :
    ∀ inc td d inc' td' d', resolveRound hni inc td d = some (inc', td', d') →
      keys inc' = hni.foldl List.erase (keys inc) ∧
      keys td' = hni.foldl List.erase (keys td) := by
  induction hni with
  | nil =>
    intro inc td d inc' td' d' h
    rw [resolveRound] at h
    cases h
    simp
  | cons o rest ih =>
    intro inc td d inc' td' d' h
    rw [resolveRound] at h
    cases hn : lookupAL td o with
    | none => rw [hn] at h; cases h
    | some n =>
      rw [hn] at h
      have hrec := ih _ _ _ _ _ _ h
      simp only [List.foldl_cons]
      refine ⟨?_, ?_⟩
      · rw [hrec.1, keys_updateAL, keys_removeAL]
      · rw [hrec.2, keys_removeAL]

theorem resolveRound_perm (hni : List α) :
    ∀ inc td d inc' td' d', resolveRound hni inc td d = some (inc', td', d') →
      (d' ++ td').Perm (d ++ td) := by
  induction hni with
  | nil =>
    intro inc td d inc' td' d' h
    rw [resolveRound] at h
    cases h
    exact List.Perm.refl _
  | cons o rest ih =>
    intro inc td d inc' td' d' h
    rw [resolveRound] at h
    cases hn : lookupAL td o with
    | none => rw [hn] at h; cases h
    | some n =>
      rw [hn] at h
      have hrec := ih _ _ _ _ _ _ h
      refine hrec.trans ?_
      rw [List.append_assoc]
      exact List.Perm.append_left d (List.Perm.symm (by simpa using perm_cons_removeAL hn))

/-! The main loop invariant proofs: the loop always terminates with an
order (the fuel `old.length + 1` is sufficient and the panic is
unreachable) as long as every key of `income_map` is a key of `todos`,
and the produced order is a permutation of the pending pairs. -/

theorem sortGo_isOk (uo : α → Nat) :
    ∀ (fuel : Nat) (inc : List (α × Bool)) (td d : List (α × α)),
      (keys inc).Nodup → (keys td).Nodup → (∀ k ∈ keys inc, k ∈ keys td) →
      inc.length < fuel → ∃ out, sortGo uo fuel inc td d = .ok out := by
  intro fuel
  induction fuel with
  | zero => intro inc td d _ _ _ h; omega
  | succ fuel ih =>
    intro inc td d hinc htd hsub hlen
    simp only [sortGo]
    by_cases htde : td = []
    · rw [if_pos htde]; exact ⟨_, rfl⟩
    · rw [if_neg htde]
      by_cases hne : (inc.filter (fun kv => !kv.2)).map Prod.fst = []
      · rw [if_pos hne]; exact ⟨_, rfl⟩
      · rw [if_neg hne]
        have hsubl : List.Sublist ((inc.filter (fun kv => !kv.2)).map Prod.fst) (keys inc) :=
          List.Sublist.map Prod.fst (List.filter_sublist inc)
        have hhnind : ((inc.filter (fun kv => !kv.2)).map Prod.fst).Nodup :=
          hinc.sublist hsubl
        have hperm := List.perm_insertionSort (fun a b => uo b ≤ uo a)
          ((inc.filter (fun kv => !kv.2)).map Prod.fst)
        have hLnd : (List.insertionSort (fun a b => uo b ≤ uo a)
            ((inc.filter (fun kv => !kv.2)).map Prod.fst)).Nodup :=
          hperm.nodup_iff.mpr hhnind
        have hLinc : ∀ k ∈ List.insertionSort (fun a b => uo b ≤ uo a)
            ((inc.filter (fun kv => !kv.2)).map Prod.fst), k ∈ keys inc :=
          fun k hk => hsubl.mem (hperm.mem_iff.mp hk)
        have hLtd : ∀ k ∈ List.insertionSort (fun a b => uo b ≤ uo a)
            ((inc.filter (fun kv => !kv.2)).map Prod.fst), k ∈ keys td :=
          fun k hk => hsub k (hLinc k hk)
        obtain ⟨st, hres⟩ := resolveRound_some _ inc td d hLnd hLtd
        obtain ⟨inc', td', d'⟩ := st
        obtain ⟨hk1, hk2⟩ := resolveRound_keys _ inc td d inc' td' d' hres
        have hinc' : (keys inc').Nodup := by rw [hk1]; exact nodup_foldl_erase _ _ hinc
        have htd' : (keys td').Nodup := by rw [hk2]; exact nodup_foldl_erase _ _ htd
        have hsub' : ∀ k ∈ keys inc', k ∈ keys td' := by
          intro k hk
          rw [hk1] at hk
          obtain ⟨hk3, hk4⟩ := (mem_foldl_erase _ _ hinc k).mp hk
          rw [hk2]
          exact (mem_foldl_erase _ _ htd k).mpr ⟨hsub k hk3, hk4⟩
        have hlen' : inc'.length < fuel := by
          have hLne : List.insertionSort (fun a b => uo b ≤ uo a)
              ((inc.filter (fun kv => !kv.2)).map Prod.fst) ≠ [] := by
            intro hL
            exact hne (List.eq_nil_of_length_eq_zero (by
              have := hperm.length_eq
              rw [hL] at this
              simpa using this.symm))
          cases hL : List.insertionSort (fun a b => uo b ≤ uo a)
              ((inc.filter (fun kv => !kv.2)).map Prod.fst) with
          | nil => exact absurd hL hLne
          | cons k0 Lr =>
            have hk0 : k0 ∈ keys inc := hLinc k0 (by rw [hL]; simp)
            have : (keys inc').length < (keys inc).length := by
              rw [hk1, hL]
              exact length_foldl_erase_lt Lr hk0
            rw [length_keys, length_keys] at this
            omega
        obtain ⟨out, hout⟩ := ih inc' td' d' hinc' htd' hsub' hlen'
        exact ⟨out, by rw [hres]; exact hout⟩

theorem sortGo_ok_perm (uo : α → Nat) :
    ∀ (fuel : Nat) (inc : List (α × Bool)) (td d out : List (α × α)),
      sortGo uo fuel inc td d = .ok out → out.Perm (d ++ td) := by
  intro fuel
  induction fuel with
  | zero => intro inc td d out h; simp [sortGo] at h
  | succ fuel ih =>
    intro inc td d out h
    simp only [sortGo] at h
    by_cases htde : td = []
    · rw [if_pos htde] at h
      injection h with h2
      subst h2
      subst htde
      simpa using d.reverse_perm
    · rw [if_neg htde] at h
      by_cases hne : (inc.filter (fun kv => !kv.2)).map Prod.fst = []
      · rw [if_pos hne] at h
        injection h with h2
        subst h2
        exact List.Perm.append d.reverse_perm
          (List.perm_insertionSort (fun p q : α × α => uo p.1 ≤ uo q.1) td)
      · rw [if_neg hne] at h
        cases hres : resolveRound (List.insertionSort (fun a b => uo b ≤ uo a)
            ((inc.filter (fun kv => !kv.2)).map Prod.fst)) inc td d with
        | none => rw [hres] at h; cases h
        | some st =>
          obtain ⟨inc', td', d'⟩ := st
          rw [hres] at h
          exact (ih inc' td' d' out h).trans (resolveRound_perm _ inc td d inc' td' d' hres)

theorem length_insertAL_le (m : List (α × β)) (k : α) (v : β) :
    (insertAL m k v).length ≤ m.length + 1 := by
  induction m with
  | nil => simp [insertAL]
  | cons kv rest ih =>
    obtain ⟨k', v'⟩ := kv
    by_cases h : k' = k
    · simp [insertAL, h]
    · simp [insertAL, h]
      omega

theorem length_initIncomeGo_le (l : List α) :
    ∀ (m : List (α × Bool)), (initIncomeGo l m).length ≤ m.length + l.length := by
  induction l with
  | nil => simp [initIncomeGo]
  | cons p rest ih =>
    intro m
    calc (initIncomeGo (p :: rest) m).length
        = (initIncomeGo rest (insertAL m p false)).length := by rw [initIncomeGo]
      _ ≤ (insertAL m p false).length + rest.length := ih _
      _ ≤ m.length + 1 + rest.length := by
          have := length_insertAL_le m p false
          omega
      _ = m.length + (p :: rest).length := by simp; omega

theorem insertAL_append_of_not_mem {m : List (α × β)} {k : α} (v : β)
    (h : k ∉ keys m) : insertAL m k v = m ++ [(k, v)] := by
  induction m with
  | nil => rfl
  | cons kv rest ih =>
    obtain ⟨k', v'⟩ := kv
    rw [keys_cons] at h
    simp only [List.mem_cons] at h
    push_neg at h
    simp [insertAL, Ne.symm h.1]
    exact ih h.2

theorem scanPairs_todos_eq (ps : List (α × α)) :
    ∀ inc td, (ps.map Prod.fst).Nodup → (∀ k ∈ ps.map Prod.fst, k ∉ keys td) →
      (scanPairs ps inc td).2 = td ++ ps := by
  induction ps with
  | nil => intro inc td _ _; simp [scanPairs]
  | cons p rest ih =>
    intro inc td hnd hdisj
    obtain ⟨o, n⟩ := p
    simp only [List.map_cons, List.nodup_cons] at hnd
    rw [scanPairs, insertAL_append_of_not_mem n (hdisj o (by simp)), ih _ _ hnd.2]
    · simp
    · intro k hk
      simp only [keys, List.map_append]
      rw [List.mem_append]
      push_neg
      refine ⟨hdisj k (by simp [hk]), ?_⟩
      simp only [keys] at *
      intro hko
      simp at hko
      exact hnd.1 (hko ▸ hk)

theorem zip_map_fst_snd_self (ps : List (α × α)) :
    (ps.map Prod.fst).zip (ps.map Prod.snd) = ps := by
  induction ps with
  | nil => rfl
  | cons p rest ih => simp [ih]

/-- Shared fact: on inputs where the old list is no longer than the new
list, `Manager::sort` terminates normally (the fuel bound is never hit
and the `unreachable!` panic never fires). -/
theorem sortR_isOk (old new : List α) (h : old.length ≤ new.length) :
    ∃ out, sortR old new = .ok out := by
  simp only [sortR]
  apply sortGo_isOk
  · rw [scanPairs_income_keys]
    exact nodup_keys_initIncome old
  · exact nodup_keys_scanPairs_todos _ _ _ (by simp [keys_nil])
  · intro k hk
    rw [scanPairs_income_keys] at hk
    rw [mem_keys_initIncome] at hk
    rw [mem_keys_scanPairs_todos]
    right
    rw [List.map_fst_zip _ _ h]
    exact hk
  · have h1 : (scanPairs (old.zip new) (initIncome old) []).1.length =
        (initIncome old).length := by
      have hkeq := scanPairs_income_keys (old.zip new) (initIncome old) []
      have h2 := length_keys (scanPairs (old.zip new) (initIncome old) []).1
      have h3 := length_keys (initIncome old)
      rw [hkeq] at h2
      omega
    have h4 : (initIncome old).length ≤ old.length := by
      rw [initIncome]
      simpa using length_initIncomeGo_le old ([] : List (α × Bool))
    omega

/-! Machinery for the determinism claim: a list sorted by a total,
transitive relation that is antisymmetric on its elements is determined
by the multiset of its elements, so the arbitrary iteration order of a
hash map is erased by the `sort_by` that follows it. -/

theorem eq_of_perm_of_sorted_of_antisymm {r : α → α → Prop} :
    ∀ {l₁ l₂ : List α}, l₁.Perm l₂ → l₁.Pairwise r → l₂.Pairwise r →
      (∀ a ∈ l₁, ∀ b ∈ l₁, r a b → r b a → a = b) → l₁ = l₂ := by
  intro l₁
  induction l₁ with
  | nil =>
    intro l₂ hp _ _ _
    exact (hp.symm.eq_nil).symm
  | cons a t ih =>
    intro l₂ hp hs₁ hs₂ hanti
    cases l₂ with
    | nil => exact absurd hp.eq_nil (by simp)
    | cons b t₂ =>
      have hab : a = b := by
        by_cases h : a = b
        · exact h
        · have ha2 : a ∈ t₂ := by
            have := hp.mem_iff.mp (List.mem_cons_self a t)
            simpa [h] using this
          have hb1 : b ∈ t := by
            have := hp.mem_iff.mpr (List.mem_cons_self b t₂)
            simpa [Ne.symm h] using this
          have hrab : r a b := (List.pairwise_cons.mp hs₁).1 b hb1
          have hrba : r b a := (List.pairwise_cons.mp hs₂).1 a ha2
          exact hanti a (List.mem_cons_self a t) b (List.mem_cons_of_mem a hb1) hrab hrba
      subst hab
      have hp' := hp.cons_inv
      have ht := ih hp' (List.pairwise_cons.mp hs₁).2 (List.pairwise_cons.mp hs₂).2
        (fun x hx y hy => hanti x (List.mem_cons_of_mem a hx) y (List.mem_cons_of_mem a hy))
      rw [ht]

theorem insertionSort_perm_congr {r : α → α → Prop} [DecidableRel r]
    (htot : ∀ a b, r a b ∨ r b a) (htrans : ∀ a b c, r a b → r b c → r a c)
    {l l' : List α} (hp : l.Perm l')
    (hanti : ∀ a ∈ l, ∀ b ∈ l, r a b → r b a → a = b) :
    List.insertionSort r l = List.insertionSort r l' := by
  have hpl := List.perm_insertionSort r l
  have hpl' := List.perm_insertionSort r l'
  apply eq_of_perm_of_sorted_of_antisymm (hpl.trans (hp.trans hpl'.symm))
  · exact @List.sorted_insertionSort α r _ ⟨htot⟩ ⟨htrans⟩ l
  · exact @List.sorted_insertionSort α r _ ⟨htot⟩ ⟨htrans⟩ l'
  · intro a ha b hb hab hba
    exact hanti a (hpl.mem_iff.mp ha) b (hpl.mem_iff.mp hb) hab hba

theorem entry_eq_of_same_key {m : List (α × β)} (hm : (keys m).Nodup)
    {p q : α × β} (hp : p ∈ m) (hq : q ∈ m) (h : p.1 = q.1) : p = q := by
  induction m with
  | nil => cases hp
  | cons kv rest ih =>
    obtain ⟨k, v⟩ := kv
    rw [keys_cons, List.nodup_cons] at hm
    rcases List.mem_cons.mp hp with hp1 | hp1 <;> rcases List.mem_cons.mp hq with hq1 | hq1
    · rw [hp1, hq1]
    · exfalso
      apply hm.1
      rw [keys]
      subst hp1
      exact List.mem_map.mpr ⟨q, hq1, h.symm⟩
    · exfalso
      apply hm.1
      rw [keys]
      subst hq1
      exact List.mem_map.mpr ⟨p, hp1, h⟩
    · exact ih hm.2 hp1 hq1

theorem foldl_erase_sublist (ks : List α) :
    ∀ A : List α, List.Sublist (ks.foldl List.erase A) A := by
  induction ks with
  | nil => intro A; simp
  | cons k rest ih =>
    intro A
    simp only [List.foldl_cons]
    exact (ih (A.erase k)).trans (A.erase_sublist k)

theorem lookupAL_insertAL (m : List (α × β)) (k : α) (v : β) (a : α) :
    lookupAL (insertAL m k v) a = if a = k then some v else lookupAL m a := by
  induction m with
  | nil =>
    by_cases h : a = k
    · simp [insertAL, lookupAL, h]
    · simp [insertAL, lookupAL, h, Ne.symm h]
  | cons kv rest ih =>
    obtain ⟨k', v'⟩ := kv
    by_cases hk : k' = k
    · subst hk
      by_cases ha : a = k'
      · simp [insertAL, lookupAL, ha]
      · simp [insertAL, lookupAL, ha, Ne.symm ha]
    · by_cases ha : k' = a
      · subst ha
        simp [insertAL, lookupAL, hk, Ne.symm hk]
      · simp [insertAL, lookupAL, hk, ha]
        exact ih

/-! The `user_order` map assigns distinct indices to distinct paths: a
looked-up index always points back at the path it was stored for. -/

theorem uoGo_lookup_inv (l : List α) :
    ∀ (n : Nat) (m : List (α × Nat)) (old : List α),
      (∀ j, l[j]? = old[n + j]?) →
      (∀ a i, lookupAL m a = some i → old[i]? = some a) →
      ∀ a i, lookupAL (uoGo l n m) a = some i → old[i]? = some a := by
  induction l with
  | nil => intro n m old _ hm a i h; exact hm a i h
  | cons p rest ih =>
    intro n m old hl hm a i h
    refine ih (n + 1) _ old ?_ ?_ a i h
    · intro j
      have h0 := hl (j + 1)
      have he : n + (j + 1) = n + 1 + j := by omega
      rw [he] at h0
      simpa using h0
    · intro a' i' h'
      rw [lookupAL_insertAL] at h'
      by_cases ha : a' = p
      · rw [if_pos ha] at h'
        have hi := Option.some.inj h'
        subst ha
        rw [← hi]
        have h0 := hl 0
        simpa using h0.symm
      · rw [if_neg ha] at h'
        exact hm a' i' h'

theorem mem_keys_uoGo (l : List α) :
    ∀ (n : Nat) (m : List (α × Nat)) (a : α),
      a ∈ keys (uoGo l n m) ↔ a ∈ keys m ∨ a ∈ l := by
  induction l with
  | nil => simp [uoGo]
  | cons p rest ih =>
    intro n m a
    rw [uoGo, ih, mem_keys_insertAL]
    simp [List.mem_cons]
    tauto

theorem userOrder_inj (old : List α) {a b : α} (ha : a ∈ old) (hb : b ∈ old)
    (h : userOrder old a = userOrder old b) : a = b := by
  have hka : a ∈ keys (userOrderMap old) := by
    rw [userOrderMap, mem_keys_uoGo]
    exact Or.inr ha
  have hkb : b ∈ keys (userOrderMap old) := by
    rw [userOrderMap, mem_keys_uoGo]
    exact Or.inr hb
  obtain ⟨ia, hia⟩ := Option.isSome_iff_exists.mp ((lookupAL_isSome_iff _ _).mpr hka)
  obtain ⟨ib, hib⟩ := Option.isSome_iff_exists.mp ((lookupAL_isSome_iff _ _).mpr hkb)
  have hlook : ∀ a' i', lookupAL (userOrderMap old) a' = some i' → old[i']? = some a' := by
    intro a' i' h'
    refine uoGo_lookup_inv old 0 [] old (fun j => by simp) ?_ a' i' h'
    intro a'' i'' h''
    simp [lookupAL] at h''
  have h1 := hlook a ia hia
  have h2 := hlook b ib hib
  rw [userOrder, userOrder, hia, hib] at h
  simp at h
  subst h
  rw [h1] at h2
  exact Option.some.inj h2

/-- Variant of `sortGo` in which the arbitrary iteration order of the two
hash maps is explicit: the oracle `π` permutes the zero-income key list
as collected from `income_map.iter()`, and `δ` permutes the entry list
produced by `todos.drain()`.  Any behaviour of the real hash maps is some
choice of `π` and `δ`. -/
def sortGoIter (uo : α → Nat) (π : List α → List α)
    (δ : List (α × α) → List (α × α)) :
    Nat → List (α × Bool) → List (α × α) → List (α × α) → SortResult α
  | 0, _, _, _ => .fuelOut
  | fuel + 1, income, todos, d =>
      if todos = [] then .ok d.reverse
      else
        let hni := π ((income.filter (fun kv => !kv.2)).map Prod.fst)
        if hni = [] then
          .ok (d.reverse ++ List.insertionSort (fun p q : α × α => uo p.1 ≤ uo q.1) (δ todos))
        else
          match resolveRound (List.insertionSort (fun a b => uo b ≤ uo a) hni) income todos d with
          | none => .panic
          | some (inc', td', d') => sortGoIter uo π δ fuel inc' td' d'

/-- `Manager::sort` under explicit hash-iteration oracles. -/
def sortRIter (π : List α → List α) (δ : List (α × α) → List (α × α))
    (old new : List α) : SortResult α :=
  let st := scanPairs (old.zip new) (initIncome old) []
  sortGoIter (userOrder old) π δ (old.length + 1) st.1 st.2 []

/-- `Manager::sort` on rename pairs under explicit hash-iteration
oracles. -/
def sortPairsIter (π : List α → List α) (δ : List (α × α) → List (α × α))
    (ps : List (α × α)) : SortResult α :=
  sortRIter π δ (ps.map Prod.fst) (ps.map Prod.snd)

/-- As long as the `user_order` indices of the keys of `income_map` and
`todos` are pairwise distinct, the hash-iteration oracles cancel out:
every collected list is sorted by a strict total order right away, so the
loop computes the same result for every iteration order. -/
theorem sortGoIter_eq_sortGo (uo : α → Nat) (π : List α → List α)
    (δ : List (α × α) → List (α × α))
    (hπ : ∀ l, (π l).Perm l) (hδ : ∀ l, (δ l).Perm l) :
    ∀ (fuel : Nat) (inc : List (α × Bool)) (td d : List (α × α)),
      ((keys inc).map uo).Nodup → ((keys td).map uo).Nodup →
      sortGoIter uo π δ fuel inc td d = sortGo uo fuel inc td d := by
  intro fuel
  induction fuel with
  | zero => intro inc td d _ _; rfl
  | succ fuel ih =>
    intro inc td d hinc htd
    simp only [sortGoIter, sortGo]
    by_cases htde : td = []
    · rw [if_pos htde, if_pos htde]
    · rw [if_neg htde, if_neg htde]
      by_cases hfe : (inc.filter (fun kv => !kv.2)).map Prod.fst = []
      · have hpe : π ((inc.filter (fun kv => !kv.2)).map Prod.fst) = [] := by
          rw [hfe]
          exact (hπ []).eq_nil
        rw [if_pos hpe, if_pos hfe]
        have hsort : List.insertionSort (fun p q : α × α => uo p.1 ≤ uo q.1) (δ td) =
            List.insertionSort (fun p q : α × α => uo p.1 ≤ uo q.1) td := by
          apply insertionSort_perm_congr
          · intro a b
            exact Nat.le_total (uo a.1) (uo b.1)
          · intro a b c h1 h2
            exact Nat.le_trans h1 h2
          · exact hδ td
          · intro p hp q hq h1 h2
            have hp' : p ∈ td := (hδ td).mem_iff.mp hp
            have hq' : q ∈ td := (hδ td).mem_iff.mp hq
            have hkp : p.1 ∈ keys td := List.mem_map.mpr ⟨p, hp', rfl⟩
            have hkq : q.1 ∈ keys td := List.mem_map.mpr ⟨q, hq', rfl⟩
            have hkey : p.1 = q.1 :=
              List.inj_on_of_nodup_map htd hkp hkq (Nat.le_antisymm h1 h2)
            exact entry_eq_of_same_key (List.Nodup.of_map uo htd) hp' hq' hkey
        rw [hsort]
      · have hpne : π ((inc.filter (fun kv => !kv.2)).map Prod.fst) ≠ [] := by
          intro h0
          apply hfe
          have hperm := hπ ((inc.filter (fun kv => !kv.2)).map Prod.fst)
          rw [h0] at hperm
          exact hperm.symm.eq_nil
        rw [if_neg hpne, if_neg hfe]
        have hsubl : List.Sublist ((inc.filter (fun kv => !kv.2)).map Prod.fst) (keys inc) :=
          List.Sublist.map Prod.fst (List.filter_sublist inc)
        have hsortk : List.insertionSort (fun a b => uo b ≤ uo a)
            (π ((inc.filter (fun kv => !kv.2)).map Prod.fst)) =
            List.insertionSort (fun a b => uo b ≤ uo a)
            ((inc.filter (fun kv => !kv.2)).map Prod.fst) := by
          apply insertionSort_perm_congr
          · intro a b
            exact Nat.le_total (uo b) (uo a)
          · intro a b c h1 h2
            exact Nat.le_trans h2 h1
          · exact hπ _
          · intro a ha b hb h1 h2
            have ha' : a ∈ keys inc := hsubl.mem ((hπ _).mem_iff.mp ha)
            have hb' : b ∈ keys inc := hsubl.mem ((hπ _).mem_iff.mp hb)
            exact List.inj_on_of_nodup_map hinc ha' hb' (Nat.le_antisymm h2 h1)
        rw [hsortk]
        cases hres : resolveRound (List.insertionSort (fun a b => uo b ≤ uo a)
            ((inc.filter (fun kv => !kv.2)).map Prod.fst)) inc td d with
        | none => rfl
        | some st =>
          obtain ⟨inc', td', d'⟩ := st
          have hk := resolveRound_keys _ inc td d inc' td' d' hres
          have hs1 : List.Sublist (keys inc') (keys inc) := by
            rw [hk.1]
            exact foldl_erase_sublist _ _
          have hs2 : List.Sublist (keys td') (keys td) := by
            rw [hk.2]
            exact foldl_erase_sublist _ _
          exact ih inc' td' d' ((List.Sublist.map uo hs1).nodup hinc)
            ((List.Sublist.map uo hs2).nodup htd)

/-- The initial maps of `Manager::sort` have pairwise distinct
`user_order` indices on their keys, so the iteration oracles are
irrelevant end to end. -/
theorem sortPairsIter_eq (ps : List (α × α)) (π : List α → List α)
    (δ : List (α × α) → List (α × α))
    (hπ : ∀ l, (π l).Perm l) (hδ : ∀ l, (δ l).Perm l) :
    sortPairsIter π δ ps = sortPairs ps := by
  simp only [sortPairsIter, sortRIter, sortPairs, sortR]
  apply sortGoIter_eq_sortGo (userOrder (ps.map Prod.fst)) π δ hπ hδ
  · rw [scanPairs_income_keys]
    apply List.Nodup.map_on
    · intro x hx y hy hxy
      rw [mem_keys_initIncome] at hx hy
      exact userOrder_inj _ hx hy hxy
    · exact nodup_keys_initIncome _
  · apply List.Nodup.map_on
    · intro x hx y hy hxy
      rw [mem_keys_scanPairs_todos] at hx hy
      simp only [keys_nil, List.not_mem_nil, false_or] at hx hy
      rw [List.map_fst_zip _ _ (by simp)] at hx hy
      exact userOrder_inj _ hx hy hxy
    · exact nodup_keys_scanPairs_todos _ _ _ (by simp [keys_nil])

/-- The safety property claimed of the scheduler: a pair may only land on
a destination after the pair that vacates that destination (the input
pair whose old path equals it) has been executed, i.e. appears earlier in
the output. -/
def RespectsDeps (ps out : List (α × α)) : Prop :=
  ∀ i : Fin out.length, ∀ q ∈ ps, q ≠ out.get i → q.1 = (out.get i).2 →
    q ∈ out.take i.val

/-- Acyclicity of the dependency graph of the claim (pair `(o1,n1)`
depends on pair `(o2,n2)` whenever `n1 = o2`), stated through its standard
finite characterisation: a ranking of the input positions that strictly
decreases along every dependency edge exists iff the graph has no cycle
(any topological rank works for an acyclic graph, and a cycle would force
an infinite strict descent). -/
def AcyclicPairs (ps : List (α × α)) : Prop :=
  ∃ rank : Nat → Nat, ∀ i j : Fin ps.length,
    i.val ≠ j.val → (ps.get i).2 = (ps.get j).1 → rank j.val < rank i.val

/-- C1: the scheduler is not safe on every acyclic input.  The input
`[(1,3),(2,3),(3,4),(5,2)]` has an acyclic dependency graph, yet the
returned order places `(2,3)` before `(3,4)`, so path 3 is overwritten
before the rename that vacates it has run: `income_map` keeps a single
boolean per destination, and resolving `(1,3)` prematurely clears the
flag of 3 while its second consumer `(2,3)` is still pending. -/
theorem sort_unsafe_on_acyclic_input :
    sortPairs ([(1,3),(2,3),(3,4),(5,2)] : List (Nat × Nat)) =
      .ok [(2,3),(3,4),(1,3),(5,2)] ∧
    AcyclicPairs ([(1,3),(2,3),(3,4),(5,2)] : List (Nat × Nat)) ∧
    ¬ RespectsDeps ([(1,3),(2,3),(3,4),(5,2)] : List (Nat × Nat))
      [(2,3),(3,4),(1,3),(5,2)] := by
  refine ⟨by decide, ⟨fun j => if j = 2 then 0 else if j = 3 then 2 else 1, by decide⟩, ?_⟩
  unfold RespectsDeps
  decide

/-- C2: the scheduler reproduces the three acyclic examples of the spec:
a chain is reversed, a duplicated destination is ordered after its
vacating rename, and independent pairs keep the input order. -/
theorem sort_spec_examples :
    sortPairs ([(2,3),(1,2),(3,4)] : List (Nat × Nat)) = .ok [(3,4),(2,3),(1,2)] ∧
    sortPairs ([(1,3),(2,3),(3,4)] : List (Nat × Nat)) = .ok [(3,4),(1,3),(2,3)] ∧
    sortPairs [("b","b_"),("a","a_"),("c","c_")] =
      .ok [("b","b_"),("a","a_"),("c","c_")] := by
  refine ⟨by decide, by decide, by decide⟩

/-- C3: on a 2-cycle the scheduler does not fail: it returns a full
ordering of both pairs (here the input order itself), and on the pure
swap `[(2,1),(1,2)]` it returns exactly the input order. -/
theorem sort_cycle_fallback :
    (∃ l, sortPairs [("a","b"),("b","a")] = .ok l ∧ l.Perm [("a","b"),("b","a")]) ∧
    sortPairs ([(2,1),(1,2)] : List (Nat × Nat)) = .ok [(2,1),(1,2)] :=
  ⟨⟨[("a","b"),("b","a")], by decide, List.Perm.refl _⟩, by decide⟩

/-- C6 counterexample: when two input pairs share the same old path the
`todos` hash map collapses them, so the returned list is not a
permutation of the input: `[(0,1),(0,2)]` yields just `[(0,2)]`. -/
theorem sort_not_permutation_on_duplicate_src :
    sortPairs ([(0,1),(0,2)] : List (Nat × Nat)) = .ok [(0,2)] ∧
    ¬ (∀ l, sortPairs ([(0,1),(0,2)] : List (Nat × Nat)) = .ok l →
        l.Perm [(0,1),(0,2)]) := by
  refine ⟨by decide, fun h => ?_⟩
  have hp := h [(0,2)] (by decide)
  have := hp.length_eq
  simp at this

/-- C4: the scheduler is a total function: on every list of rename pairs,
cyclic or not, the loop terminates within the fuel bound and returns an
order; it neither panics nor raises a failure. -/
theorem sort_total (ps : List (α × α)) : ∃ out, sortPairs ps = .ok out :=
  sortR_isOk (ps.map Prod.fst) (ps.map Prod.snd) (by simp)

/-- C10: when the old and new lists have equal length, every key the loop
collects into `has_no_incomes` is still present in `todos` when it is
removed, so the `unreachable!` branch of `Manager::sort` is never hit. -/
theorem sort_no_panic_of_eq_length (old new : List α)
    (h : old.length = new.length) : sortR old new ≠ .panic := by
  obtain ⟨out, hout⟩ := sortR_isOk old new h.le
  rw [hout]
  simp

/-- Witness for `sort_no_panic_of_eq_length` at a concrete input. -/
theorem sort_no_panic_of_eq_length_witness :
    [(1 : Nat)].length = [(2 : Nat)].length ∧ sortR [(1 : Nat)] [(2 : Nat)] ≠ .panic :=
  ⟨rfl, sort_no_panic_of_eq_length [1] [2] rfl⟩

/-- C6 (amended): when the old paths of the input pairs are pairwise
distinct - as they are for a list of files to rename - the returned order
is a permutation of the input pairs. -/
theorem sort_perm_of_nodup_src (ps : List (α × α))
    (h : (ps.map Prod.fst).Nodup) :
    ∃ out, sortPairs ps = .ok out ∧ out.Perm ps := by
  obtain ⟨out, hout⟩ := sortR_isOk (ps.map Prod.fst) (ps.map Prod.snd) (by simp)
  refine ⟨out, hout, ?_⟩
  have hzip : (ps.map Prod.fst).zip (ps.map Prod.snd) = ps := zip_map_fst_snd_self ps
  have htd := scanPairs_todos_eq ((ps.map Prod.fst).zip (ps.map Prod.snd))
    (initIncome (ps.map Prod.fst)) [] (by rw [hzip]; exact h)
    (fun k _ hk => by simp [keys_nil] at hk)
  simp only [sortR] at hout
  have hperm := sortGo_ok_perm _ _ _ _ _ _ hout
  rw [htd, hzip] at hperm
  simpa using hperm

/-- Witness for `sort_perm_of_nodup_src` at a concrete input. -/
theorem sort_perm_of_nodup_src_witness :
    (([((0 : Nat), (1 : Nat))].map Prod.fst).Nodup) ∧
      ∃ out, sortPairs [((0 : Nat), (1 : Nat))] = .ok out ∧ out.Perm [(0, 1)] :=
  ⟨by decide, sort_perm_of_nodup_src [(0, 1)] (by decide)⟩

/-- C5: the scheduler is deterministic.  The only nondeterminism in
`Manager::sort` is the iteration order of the two hash maps; under any
two iteration-order oracles (each producing some permutation of the
entries it is given, as a hash map does), identical input yields the
identical ExecutionOrder. -/
theorem sort_deterministic (ps : List (α × α))
    (π₁ π₂ : List α → List α) (δ₁ δ₂ : List (α × α) → List (α × α))
    (hπ₁ : ∀ l, (π₁ l).Perm l) (hδ₁ : ∀ l, (δ₁ l).Perm l)
    (hπ₂ : ∀ l, (π₂ l).Perm l) (hδ₂ : ∀ l, (δ₂ l).Perm l) :
    sortPairsIter π₁ δ₁ ps = sortPairsIter π₂ δ₂ ps := by
  rw [sortPairsIter_eq ps π₁ δ₁ hπ₁ hδ₁, sortPairsIter_eq ps π₂ δ₂ hπ₂ hδ₂]

/-- Witness for `sort_deterministic`: the identity iteration order and
the reversed iteration order give the same result on a concrete input. -/
theorem sort_deterministic_witness :
    (∀ l : List (Nat × Nat), (List.reverse l).Perm l) ∧
    sortPairsIter (fun l : List Nat => l) (fun l => l) [(1, 2), (2, 3)] =
      sortPairsIter List.reverse List.reverse [(1, 2), (2, 3)] :=
  ⟨fun l => List.reverse_perm l,
    sort_deterministic [(1, 2), (2, 3)] (fun l => l) List.reverse
      (fun l => l) List.reverse
      (fun l => List.Perm.refl l) (fun l => List.Perm.refl l)
      (fun l => List.reverse_perm l) (fun l => List.reverse_perm l)⟩

/-! Embedding of the execution phase of `Manager::bulk_rename_do`.  The
filesystem is abstracted as a partial map from (absolute) paths to file
identities: `maybe_exists` is definedness, `paths_to_same_file` compares
the resolved identities (so aliasing robustness holds by construction),
and `fs::rename` moves the identity from the source path to the
destination path.  The environment may still fail a rename call
(permissions, cross-device) or a metadata retrieval; the oracles in
`ExecEnv` decide those.  The terminal prompts of the Rust function are
I/O glue, represented only by the `confirmed` flag. -/

variable {ι : Type} [DecidableEq ι]

/-- `maybe_exists`: the path resolves to a file. -/
def maybeExists (fs : α → Option ι) (p : α) : Bool := (fs p).isSome

/-- `paths_to_same_file`: both paths resolve and to the same identity. -/
def pathsToSameFile (fs : α → Option ι) (p q : α) : Bool :=
  match fs p, fs q with
  | some a, some b => a = b
  | _, _ => false

/-- `fs::rename`: the destination now holds the source file, the source
no longer resolves (renaming a path to itself keeps the file). -/
def renameFS (fs : α → Option ι) (p q : α) : α → Option ι :=
  fun r => if r = q then fs p else if r = p then none else fs r

/-- Failures the environment can inject: an error from the rename call
itself, or a failure to re-resolve metadata after a successful rename. -/
structure ExecEnv (α : Type) where
  renameFails : α → α → Bool
  statFails : α → Bool

/-- Outcome of processing one pair, as in the loop body of
`bulk_rename_do`: a collision, a rename error, a metadata-retrieval
failure after the rename, or a success carrying the re-resolved
metadata of the destination (its path and identity). -/
inductive PairOutcome (α ι : Type) where
  | collision
  | ioError
  | metaError
  | renamed (meta : α × ι)
deriving DecidableEq

/-- One iteration of the executor loop: if the destination exists and is
not the same file as the source, record a collision without attempting
the rename; otherwise attempt the rename (which fails if the source is
missing or the environment injects an error); on success re-resolve the
destination metadata. -/
def execOne (env : ExecEnv α) (fs : α → Option ι) (o n : α) :
    (α → Option ι) × PairOutcome α ι :=
  if maybeExists fs n && !pathsToSameFile fs o n then (fs, .collision)
  else
    match fs o with
    | none => (fs, .ioError)
    | some i =>
        if env.renameFails o n then (fs, .ioError)
        else if env.statFails n then (renameFS fs o n, .metaError)
        else (renameFS fs o n, .renamed (n, i))

/-- Reasons recorded in the `failed` vector of `bulk_rename_do`. -/
inductive FailReason where
  | destExists
  | ioErr
  | metaErr
deriving DecidableEq

/-- The full executor loop: failures are pushed in execution order, and
successes are inserted into the `succeeded` map keyed by the original
(pre-rename) path, in completion order. -/
def execAll (env : ExecEnv α) :
    (α → Option ι) → List (α × α) → List (α × α × FailReason) →
    List (α × (α × ι)) →
    (α → Option ι) × List (α × α × FailReason) × List (α × (α × ι))
  | fs, [], failed, succ => (fs, failed, succ)
  | fs, (o, n) :: rest, failed, succ =>
      match execOne env fs o n with
      | (fs', .collision) => execAll env fs' rest (failed ++ [(o, n, .destExists)]) succ
      | (fs', .ioError) => execAll env fs' rest (failed ++ [(o, n, .ioErr)]) succ
      | (fs', .metaError) => execAll env fs' rest (failed ++ [(o, n, .metaErr)]) succ
      | (fs', .renamed m) => execAll env fs' rest failed (insertAL succ o m)

/-- The sequence handed to `Pubsub::pub_from_bulk`: the entries of the
`succeeded` hash map in the map's iteration order, which the oracle `π`
makes explicit. -/
def pubFromBulk (π : List (α × (α × ι)) → List (α × (α × ι)))
    (succ : List (α × (α × ι))) : List (α × (α × ι)) := π succ

/-- The `todo` list of `bulk_rename_do`.  The fallback branches are
unreachable on the equal-length inputs this is called with
(`sort_no_panic_of_eq_length`, `sortR_isOk`). -/
def sortOrder (old new : List α) : List (α × α) :=
  match sortR old new with
  | .ok l => l
  | .panic => []
  | .fuelOut => []

/-- `Manager::bulk_rename_do` up to its filesystem effect and recorded
outcome: the count-mismatch check aborts first, then an empty order
aborts, then the confirmation gate, then the executor runs. -/
def bulkRenameDo (env : ExecEnv α) (confirmed : Bool) (fs : α → Option ι)
    (old new : List α) :
    (α → Option ι) × List (α × α × FailReason) × List (α × (α × ι)) :=
  if old.length ≠ new.length then (fs, [], [])
  else
    let todo := sortOrder old new
    if todo = [] then (fs, [], [])
    else if confirmed then execAll env fs todo [] []
    else (fs, [], [])

theorem renameFS_self (fs : α → Option ι) (p : α) : renameFS fs p p = fs := by
  funext r
  by_cases h : r = p <;> simp [renameFS, h]

theorem mem_insertAL {m : List (α × β)} {k : α} {v : β} {x : α × β}
    (h : x ∈ insertAL m k v) : x ∈ m ∨ x = (k, v) := by
  induction m with
  | nil => simpa [insertAL] using h
  | cons kv rest ih =>
    obtain ⟨k', v'⟩ := kv
    by_cases hk : k' = k
    · subst hk
      rcases List.mem_cons.mp (by simpa [insertAL] using h) with h1 | h1
      · exact Or.inr h1
      · exact Or.inl (List.mem_cons_of_mem _ h1)
    · rcases List.mem_cons.mp (by simpa [insertAL, hk] using h) with h1 | h1
      · exact Or.inl (h1 ▸ List.mem_cons_self _ _)
      · rcases ih h1 with h2 | h2
        · exact Or.inl (List.mem_cons_of_mem _ h2)
        · exact Or.inr h2

/-- In the success branch of the loop body, the recorded metadata is the
one re-resolved at the destination: its path is the pair's destination
and its identity is what the post-rename filesystem holds there. -/
theorem execOne_renamed_spec {env : ExecEnv α} {fs fs' : α → Option ι}
    {o n : α} {m : α × ι} (h : execOne env fs o n = (fs', .renamed m)) :
    m.1 = n ∧ fs' n = some m.2 := by
  by_cases hc : (maybeExists fs n && !pathsToSameFile fs o n) = true
  · rw [execOne, if_pos hc] at h
    simp at h
  · rw [execOne, if_neg hc] at h
    cases hfo : fs o with
    | none => rw [hfo] at h; simp at h
    | some i =>
      rw [hfo] at h
      by_cases hr : env.renameFails o n
      · simp [hr] at h
      · by_cases hs : env.statFails n
        · simp [hr, hs] at h
        · simp [hr, hs] at h
          obtain ⟨h1, h2⟩ := h
          constructor
          · rw [← h2]
          · rw [← h1, ← h2, renameFS]
            simp [hfo]

/-- The entry (k, v) just inserted is in the map. -/
theorem mem_insertAL_self (m : List (α × β)) (k : α) (v : β) :
    (k, v) ∈ insertAL m k v := by
  induction m with
  | nil => simp [insertAL]
  | cons kv rest ih =>
    obtain ⟨k', v'⟩ := kv
    by_cases hk : k' = k
    · subst hk
      simp [insertAL]
    · rw [insertAL, if_neg hk]
      exact List.mem_cons_of_mem _ ih

/-- Entries with a different key survive an insert. -/
theorem mem_insertAL_of_ne {m : List (α × β)} {x : α × β} {k : α} (v : β)
    (hx : x ∈ m) (hne : x.1 ≠ k) : x ∈ insertAL m k v := by
  induction m with
  | nil => cases hx
  | cons kv rest ih =>
    obtain ⟨k', v'⟩ := kv
    by_cases hk : k' = k
    · subst hk
      rcases List.mem_cons.mp hx with h1 | h1
      · exact absurd (by rw [h1]) hne
      · rw [insertAL, if_pos rfl]
        exact List.mem_cons_of_mem _ h1
    · rcases List.mem_cons.mp hx with h1 | h1
      · rw [insertAL, if_neg hk, h1]
        exact List.mem_cons_self _ _
      · rw [insertAL, if_neg hk]
        exact List.mem_cons_of_mem _ (ih h1)

/-- The filesystem threaded through the executor loop does not depend on
the failure and success accumulators. -/
theorem execAll_fs_indep (env : ExecEnv α) :
    ∀ (pairs : List (α × α)) (fs : α → Option ι) f1 s1 f2 s2,
      (execAll env fs pairs f1 s1).1 = (execAll env fs pairs f2 s2).1 := by
  intro pairs
  induction pairs with
  | nil => intro fs f1 s1 f2 s2; rfl
  | cons p rest ih =>
    intro fs f1 s1 f2 s2
    obtain ⟨o, n⟩ := p
    rw [execAll, execAll]
    cases hone : execOne env fs o n with
    | mk fs' oc => cases oc <;> exact ih _ _ _ _ _

/-- The executor loop splits along a decomposition of the pair list. -/
theorem execAll_append (env : ExecEnv α) :
    ∀ (l1 l2 : List (α × α)) (fs : α → Option ι) failed succ,
      execAll env fs (l1 ++ l2) failed succ =
        execAll env (execAll env fs l1 failed succ).1 l2
          (execAll env fs l1 failed succ).2.1 (execAll env fs l1 failed succ).2.2 := by
  intro l1
  induction l1 with
  | nil => intro l2 fs failed succ; rfl
  | cons p rest ih =>
    intro l2 fs failed succ
    obtain ⟨o, n⟩ := p
    rw [List.cons_append, execAll, execAll]
    cases hone : execOne env fs o n with
    | mk fs' oc => cases oc <;> exact ih _ _ _ _

/-- A recorded success whose key is not an old path of the remaining
pairs survives the rest of the loop. -/
theorem execAll_succ_preserve (env : ExecEnv α) :
    ∀ (pairs : List (α × α)) (fs : α → Option ι) failed succ (x : α × (α × ι)),
      x ∈ succ → x.1 ∉ pairs.map Prod.fst →
      x ∈ (execAll env fs pairs failed succ).2.2 := by
  intro pairs
  induction pairs with
  | nil => intro fs failed succ x hx _; exact hx
  | cons p rest ih =>
    intro fs failed succ x hx hnot
    obtain ⟨o, n⟩ := p
    simp only [List.map_cons, List.mem_cons, not_or] at hnot
    rw [execAll]
    cases hone : execOne env fs o n with
    | mk fs' oc =>
      cases oc with
      | collision => exact ih _ _ _ x hx hnot.2
      | ioError => exact ih _ _ _ x hx hnot.2
      | metaError => exact ih _ _ _ x hx hnot.2
      | renamed m => exact ih _ _ _ x (mem_insertAL_of_ne m hx hnot.1) hnot.2

/-- Soundness of the `succeeded` map: every entry was produced by the
success branch of some step of the loop - its key is the old path of the
pair executed at that step, and its value is the metadata computed by
that very `execOne` call on the filesystem reached after the preceding
pairs. -/
theorem execAll_succ_sound (env : ExecEnv α) :
    ∀ (pairs : List (α × α)) (fs : α → Option ι) failed succ (om : α × (α × ι)),
      om ∈ (execAll env fs pairs failed succ).2.2 →
      om ∈ succ ∨ ∃ pre n post fs',
        pairs = pre ++ (om.1, n) :: post ∧
        execOne env (execAll env fs pre [] []).1 om.1 n = (fs', .renamed om.2) := by
  intro pairs
  induction pairs with
  | nil => intro fs failed succ om h; exact Or.inl h
  | cons p rest ih =>
    intro fs failed succ om h
    obtain ⟨o, n⟩ := p
    rw [execAll] at h
    cases hone : execOne env fs o n with
    | mk fs1 oc =>
      rw [hone] at h
      cases oc with
      | collision =>
        rcases ih _ _ _ om h with h1 | ⟨pre1, n1, post1, fs2, hdec, hexec⟩
        · exact Or.inl h1
        · refine Or.inr ⟨(o, n) :: pre1, n1, post1, fs2, by rw [hdec]; rfl, ?_⟩
          have hglue : (execAll env fs ((o, n) :: pre1) [] []).1 =
              (execAll env fs1 pre1 [] []).1 := by
            rw [execAll, hone]
            exact execAll_fs_indep env pre1 fs1 _ _ _ _
          rw [hglue]
          exact hexec
      | ioError =>
        rcases ih _ _ _ om h with h1 | ⟨pre1, n1, post1, fs2, hdec, hexec⟩
        · exact Or.inl h1
        · refine Or.inr ⟨(o, n) :: pre1, n1, post1, fs2, by rw [hdec]; rfl, ?_⟩
          have hglue : (execAll env fs ((o, n) :: pre1) [] []).1 =
              (execAll env fs1 pre1 [] []).1 := by
            rw [execAll, hone]
            exact execAll_fs_indep env pre1 fs1 _ _ _ _
          rw [hglue]
          exact hexec
      | metaError =>
        rcases ih _ _ _ om h with h1 | ⟨pre1, n1, post1, fs2, hdec, hexec⟩
        · exact Or.inl h1
        · refine Or.inr ⟨(o, n) :: pre1, n1, post1, fs2, by rw [hdec]; rfl, ?_⟩
          have hglue : (execAll env fs ((o, n) :: pre1) [] []).1 =
              (execAll env fs1 pre1 [] []).1 := by
            rw [execAll, hone]
            exact execAll_fs_indep env pre1 fs1 _ _ _ _
          rw [hglue]
          exact hexec
      | renamed m =>
        rcases ih _ _ _ om h with h1 | ⟨pre1, n1, post1, fs2, hdec, hexec⟩
        · rcases mem_insertAL h1 with h2 | h2
          · exact Or.inl h2
          · subst h2
            exact Or.inr ⟨[], n, rest, fs1, rfl, hone⟩
        · refine Or.inr ⟨(o, n) :: pre1, n1, post1, fs2, by rw [hdec]; rfl, ?_⟩
          have hglue : (execAll env fs ((o, n) :: pre1) [] []).1 =
              (execAll env fs1 pre1 [] []).1 := by
            rw [execAll, hone]
            exact execAll_fs_indep env pre1 fs1 _ _ _ _
          rw [hglue]
          exact hexec

/-- An environment that injects no failures. -/
def envNone : ExecEnv Nat := ⟨fun _ _ => false, fun _ => false⟩

/-- A filesystem with two files: path 1 holds file 10, path 2 holds
file 20. -/
def fsTwo : Nat → Option Nat :=
  fun p => if p = 1 then some 10 else if p = 2 then some 20 else none

/-- C7: when the old and new lists differ in length, `bulk_rename_do`
aborts before any rename is attempted: the filesystem is unchanged and
no outcome (neither failure nor success) is recorded. -/
theorem bulk_rename_mismatch_no_mutation (env : ExecEnv α) (confirmed : Bool)
    (fs : α → Option ι) (old new : List α) (h : old.length ≠ new.length) :
    bulkRenameDo env confirmed fs old new = (fs, [], []) := by
  simp [bulkRenameDo, h]

/-- Witness for `bulk_rename_mismatch_no_mutation` at a concrete input. -/
theorem bulk_rename_mismatch_no_mutation_witness :
    ([(1 : Nat)].length ≠ ([] : List Nat).length) ∧
      bulkRenameDo envNone true fsTwo [1] [] = (fsTwo, [], []) :=
  ⟨by decide, bulk_rename_mismatch_no_mutation envNone true fsTwo [1] [] (by decide)⟩

/-- C8: if the destination exists on disk and does not refer to the same
underlying file as the source, the executor records a collision and does
not attempt the rename (the filesystem is untouched); and a pair with
`old = new` is a same-file no-op: it is never recorded as a collision
and the filesystem is unchanged. -/
theorem exec_collision_and_noop (env : ExecEnv α) (fs : α → Option ι) (o n : α) :
    (maybeExists fs n = true → pathsToSameFile fs o n = false →
      execOne env fs o n = (fs, .collision)) ∧
    (o = n → (execOne env fs o n).2 ≠ .collision ∧ (execOne env fs o n).1 = fs) := by
  constructor
  · intro h1 h2
    rw [execOne, if_pos (by rw [h1, h2]; rfl)]
  · rintro rfl
    cases hfo : fs o with
    | none =>
      have hme : maybeExists fs o = false := by simp [maybeExists, hfo]
      rw [execOne, if_neg (by rw [hme]; simp), hfo]
      simp
    | some i =>
      have hsame : pathsToSameFile fs o o = true := by simp [pathsToSameFile, hfo]
      rw [execOne, if_neg (by rw [hsame]; simp), hfo]
      by_cases hr : env.renameFails o o
      · simp [hr]
      · by_cases hs : env.statFails o
        · simp [hr, hs, renameFS_self]
        · simp [hr, hs, renameFS_self]

/-- Witness for `exec_collision_and_noop` at concrete inputs: path 2
exists and holds a different file than path 1, so renaming 1 over 2 is a
collision; renaming 1 onto itself is a no-op and no collision. -/
theorem exec_collision_and_noop_witness :
    maybeExists fsTwo 2 = true ∧ pathsToSameFile fsTwo 1 2 = false ∧
    execOne envNone fsTwo 1 2 = (fsTwo, .collision) ∧
    ((execOne envNone fsTwo 1 1).2 ≠ .collision ∧ (execOne envNone fsTwo 1 1).1 = fsTwo) :=
  ⟨by decide, by decide,
    (exec_collision_and_noop envNone fsTwo 1 2).1 (by decide) (by decide),
    (exec_collision_and_noop envNone fsTwo 1 1).2 rfl⟩

/-- C9 counterexample: the `succeeded` map is handed to the notification
collaborators through hash-map iteration, which need not be the
completion order.  With two successful renames, the completion order is
`[(1, (3, 10)), (2, (4, 20))]`, but a legitimate hash iteration order
(here: reversed) emits the pairs in the other order. -/
theorem pub_order_not_completion_order :
    (execAll envNone fsTwo [(1, 3), (2, 4)] [] []).2.2 =
      [(1, (3, 10)), (2, (4, 20))] ∧
    ∃ π : List (Nat × (Nat × Nat)) → List (Nat × (Nat × Nat)),
      (∀ l, (π l).Perm l) ∧
      pubFromBulk π (execAll envNone fsTwo [(1, 3), (2, 4)] [] []).2.2 ≠
        (execAll envNone fsTwo [(1, 3), (2, 4)] [] []).2.2 :=
  ⟨by decide, List.reverse, fun l => List.reverse_perm l, by decide⟩

/-- C9 (amended): the executor supplies the notification collaborators
the succeeded mapping keyed by the original (pre-rename) path, in an
unspecified (hash-iteration) order rather than completion order.  The
mapping is exactly the successes of the run: (soundness) every entry was
produced by the success branch of some step, keyed by that pair's old
path, its metadata re-resolved at the pair's destination - its path is
the destination and its identity is what the filesystem holds there
right after that rename; and (completeness, for pairwise-distinct
sources, as every todo list built from the `todos` hash map has) every
step whose `execOne` succeeds contributes its entry to the map. -/
theorem pub_correct_mapping (env : ExecEnv α) (fs : α → Option ι)
    (pairs : List (α × α))
    (π : List (α × (α × ι)) → List (α × (α × ι)))
    (hπ : ∀ l, (π l).Perm l) (hnd : (pairs.map Prod.fst).Nodup) :
    (pubFromBulk π (execAll env fs pairs [] []).2.2).Perm
      (execAll env fs pairs [] []).2.2 ∧
    (∀ om ∈ (execAll env fs pairs [] []).2.2,
      ∃ pre n post fs', pairs = pre ++ (om.1, n) :: post ∧
        execOne env (execAll env fs pre [] []).1 om.1 n = (fs', .renamed om.2) ∧
        om.2.1 = n ∧ fs' n = some om.2.2) ∧
    (∀ pre o n post fs' m, pairs = pre ++ (o, n) :: post →
      execOne env (execAll env fs pre [] []).1 o n = (fs', .renamed m) →
      (o, m) ∈ (execAll env fs pairs [] []).2.2) := by
  refine ⟨hπ _, ?_, ?_⟩
  · intro om hom
    rcases execAll_succ_sound env pairs fs [] [] om hom with h | ⟨pre, n, post, fs', hdec, hexec⟩
    · cases h
    · obtain ⟨hm1, hm2⟩ := execOne_renamed_spec hexec
      exact ⟨pre, n, post, fs', hdec, hexec, hm1, hm2⟩
  · intro pre o n post fs' m hdec hexec
    subst hdec
    rw [execAll_append, execAll, hexec]
    apply execAll_succ_preserve
    · exact mem_insertAL_self _ o m
    · rw [List.map_append] at hnd
      have h2 := hnd.of_append_right
      rw [List.map_cons] at h2
      exact (List.nodup_cons.mp h2).1

/-- Witness for `pub_correct_mapping` at a concrete input: one file,
renamed successfully. -/
theorem pub_correct_mapping_witness :
    (∀ l : List (Nat × (Nat × Nat)), (List.reverse l).Perm l) ∧
    (([((1 : Nat), (3 : Nat))].map Prod.fst).Nodup) ∧
    ((pubFromBulk List.reverse (execAll envNone fsTwo [(1, 3)] [] []).2.2).Perm
        (execAll envNone fsTwo [(1, 3)] [] []).2.2 ∧
      (∀ om ∈ (execAll envNone fsTwo [(1, 3)] [] []).2.2,
        ∃ pre n post fs', [((1 : Nat), (3 : Nat))] = pre ++ (om.1, n) :: post ∧
          execOne envNone (execAll envNone fsTwo pre [] []).1 om.1 n =
            (fs', .renamed om.2) ∧
          om.2.1 = n ∧ fs' n = some om.2.2) ∧
      (∀ pre o n post fs' m, [((1 : Nat), (3 : Nat))] = pre ++ (o, n) :: post →
          execOne envNone (execAll envNone fsTwo pre [] []).1 o n =
            (fs', .renamed m) →
          (o, m) ∈ (execAll envNone fsTwo [(1, 3)] [] []).2.2)) :=
  ⟨fun l => List.reverse_perm l, by decide,
    pub_correct_mapping envNone fsTwo [(1, 3)] List.reverse
      (fun l => List.reverse_perm l) (by decide)⟩

end BulkRename
